import Mathlib

/-!
Verification of the `xorro` parity-constraint translation module
(`xorro/__init__.py`).

The module rewrites logic programs with parity (XOR) constraints for the
clingo solver.  Its observable actions are:
  * adding program text and grounding it (`prg.add` / `prg.ground`),
  * registering propagators (`prg.register_propagator`),
  * emitting backend rules (`backend.add_atom` / `backend.add_rule`).

We embed those actions shallowly: a `Backend` is a fresh-atom counter plus
the ordered list of emitted rules; the program-level effects of `translate`
are recorded in an `Effect` structure.  clingo literals are integers: a
positive integer names an atom, a negative body literal is the default
negation of the corresponding atom.
-/

/-- A backend rule `add_rule(head, body)`: head atoms and body literals,
exactly as passed to clingo's backend. -/
abbrev XRule := List Int × List Int

/-- The clingo backend as seen by the module: `nextAtom` is the next fresh
atom returned by `add_atom`, `rules` the rules emitted so far (in order). -/
structure Backend where
  nextAtom : Int
  rules : List XRule
  deriving Repr, DecidableEq

/-- `backend.add_atom()`: returns a fresh atom and bumps the counter. -/
def Backend.add_atom (b : Backend) : Int × Backend :=
  (b.nextAtom, ⟨b.nextAtom + 1, b.rules⟩)

/-- `backend.add_rule(head, body)`. -/
def Backend.add_rule (b : Backend) (head : List Int) (body : List Int) : Backend :=
  ⟨b.nextAtom, b.rules ++ [(head, body)]⟩

/-- `translate_binary_xor(backend, lhs, rhs)`:
`aux = backend.add_atom(); backend.add_rule([aux],[lhs,-rhs]);
backend.add_rule([aux],[-lhs,rhs]); return aux`. -/
def translate_binary_xor (b : Backend) (lhs rhs : Int) : Int × Backend :=
  let p := b.add_atom
  let aux := p.1
  let b1 := p.2
  let b2 := b1.add_rule [aux] [lhs, -rhs]
  let b3 := b2.add_rule [aux] [-lhs, rhs]
  (aux, b3)

/-- The `Leaf`/`Tree` classes: a binary tree whose leaves are literals. -/
inductive TNode where
  | Leaf (atom : Int)
  | Tree (lhs rhs : TNode)
  deriving Repr, DecidableEq

/-- `Leaf.translate` returns the stored atom; `Tree.translate` translates
both children and combines them with `translate_binary_xor`. -/
def TNode.translate : TNode → Backend → Int × Backend
  | .Leaf a, b => (a, b)
  | .Tree l r, b =>
    let pl := l.translate b
    let pr := r.translate pl.2
    translate_binary_xor pr.2 pl.1 pr.1

/-- The literals at the leaves of a tree, left to right. -/
def TNode.leaves : TNode → List Int
  | .Leaf a => [a]
  | .Tree l r => l.leaves ++ r.leaves

/-- One iteration of the `while` loop in `to_tree`:
`list(starmap(tree, zip_longest(layer[0::2], layer[1::2])))` pairs the
even-indexed node with the following odd-indexed node (`Tree x y`); a
trailing unpaired node (`zip_longest` fill value `None`) is kept as is
(`tree(l, r) = l if r is None else Tree(l, r)`). -/
def pairUp : List TNode → List TNode
  | [] => []
  | [x] => [x]
  | x :: y :: rest => TNode.Tree x y :: pairUp rest

/-- The `while len(layer) > 1` loop of `to_tree`, with an explicit fuel
bound on the number of iterations.  Each iteration halves the layer (up),
so fuel `layer.length` always reaches the loop's fixpoint; this is proved
below (`to_tree_loop` is stable once the layer has at most one node). -/
def to_tree_loop : Nat → List TNode → List TNode
  | 0, layer => layer
  | n + 1, layer => if 1 < layer.length then to_tree_loop n (pairUp layer) else layer

/-- `to_tree(constraint)`: build a leaf layer, pair it up until a single
node remains, and return `layer[0]` (`none` models the `IndexError` an
empty layer would raise). -/
def to_tree (constraint : List Int) : Option TNode :=
  let layer := constraint.map TNode.Leaf
  (to_tree_loop layer.length layer).head?

/-- `List.__init__(literals)`: `assert(len(literals) > 0)`; a failed
assertion is modelled as `none`. -/
def ListXor.init (literals : List Int) : Option (List Int) :=
  if literals.length > 0 then some literals else none

/-- `List.translate`: `util.reduce(lambda l, r: translate_binary_xor(backend, l, r),
literals)`.  `util.reduce` is `functools.reduce` re-exported: on `x :: xs`
it folds from the left starting at `x`; on `[]` it raises (modelled as
`none`).  The Python lambda mutates the backend in place; here the backend
is threaded through the fold explicitly. -/
def ListXor.translate (literals : List Int) (b : Backend) : Option (Int × Backend) :=
  match literals with
  | [] => none
  | x :: xs =>
    some (xs.foldl (fun acc r => translate_binary_xor acc.2 acc.1 r) (x, b))

/-- `tree = List(constraint) if mode == "list" else to_tree(constraint)`
followed by `tree.translate(b)`. -/
def xorAtomOf (mode : String) (c : List Int) (b : Backend) : Option (Int × Backend) :=
  if mode = "list" then
    (ListXor.init c).bind (fun ls => ListXor.translate ls b)
  else
    (to_tree c).map (fun t => t.translate b)

/-- The `for constraint in constraints` loop of the list/tree branch:
translate each constraint and add the integrity constraint
`b.add_rule([], [-tree.translate(b)])`. -/
def translateConstraints (mode : String) (cs : List (List Int)) (b : Backend) : Option Backend :=
  match cs with
  | [] => some b
  | c :: rest =>
    match xorAtomOf mode c b with
    | none => none
    | some (a, b1) => translateConstraints mode rest (b1.add_rule [] [-a])

/-- The list/tree branch of `translate`, parametrised by the result `ret` of
`util.symbols_to_xor_r` (that function lives in the `util` module, which is
not part of this file's source; its result — `None` on contradiction,
otherwise remaining constraints and fact literals — is taken as input).
`ret = None` adds the empty integrity constraint `b.add_rule([], [])`;
otherwise each fact gets `b.add_rule([], [-fact])` and each constraint an
integrity constraint on its translated XOR atom. -/
def translate_list_tree (mode : String) (ret : Option (List (List Int) × List Int))
    (b : Backend) : Option Backend :=
  match ret with
  | none => some (b.add_rule [] [])
  | some (constraints, facts) =>
    translateConstraints mode constraints
      (facts.foldl (fun bb fact => bb.add_rule [] [-fact]) b)

/-- The propagator objects `translate` can register, with their constructor
arguments. -/
inductive PropagatorReg where
  | CountCheckPropagator
  | WatchesUnitPropagator
  | Propagate_GJE (cutoff : ℚ)
  | Reason_GJE (cutoff : ℚ)
  | State_GJE (cutoff : ℚ)
  | Simplex_GJE (cutoff : ℚ) (display : Bool)
  deriving Repr, DecidableEq

/-- The observable effect of `translate` on the clingo control object:
program parts added (name, source text; the parameter list is always `[]`),
parts grounded, propagators registered, and the resulting backend. -/
structure Effect where
  added : List (String × String)
  grounded : List String
  registered : List PropagatorReg
  backend : Backend
  deriving Repr, DecidableEq

/-- The two failure modes of `translate`: the `RuntimeError` raised on an
unknown mode, and the `AssertionError`/`TypeError` raised when a constraint
with no literals reaches `List`/`to_tree`. -/
inductive TError where
  | runtimeError (msg : String)
  | assertionError
  deriving Repr, DecidableEq

/-- The program text added in mode `"count"` (after `dedent`), verbatim from
the source. -/
def countProgram : String :=
  ":- \x7b __parity(ID,even,X) \x7d = N, N\\2!=0, __parity(ID,even).\n:- \x7b __parity(ID,odd ,X) \x7d = N, N\\2!=1, __parity(ID,odd).\n"

/-- `translate(mode, prg, cutoff, display)`.  The `ret` argument stands for
the value of `util.symbols_to_xor_r(prg.symbolic_atoms, get_lit)` computed
in the list/tree branch (see `translate_list_tree`). -/
def xorro.translate (mode : String) (cutoff : ℚ) (display : Bool)
    (ret : Option (List (List Int) × List Int)) (b : Backend) : Except TError Effect :=
  if mode = "count" then
    .ok ⟨[("__count", countProgram)], ["__count"], [], b⟩
  else if mode = "countp" then
    .ok ⟨[], [], [.CountCheckPropagator], b⟩
  else if mode = "up" then
    .ok ⟨[], [], [.WatchesUnitPropagator], b⟩
  else if mode = "gje-fp" then
    .ok ⟨[], [], [.WatchesUnitPropagator, .Propagate_GJE cutoff], b⟩
  else if mode = "gje-prop" then
    .ok ⟨[], [], [.Reason_GJE cutoff], b⟩
  else if mode = "gje-prop-n" then
    .ok ⟨[], [], [.State_GJE cutoff], b⟩
  else if mode = "gje-simplex" then
    .ok ⟨[], [], [.Simplex_GJE cutoff display], b⟩
  else if mode = "list" ∨ mode = "tree" then
    match translate_list_tree mode ret b with
    | none => .error .assertionError
    | some b1 => .ok ⟨[], [], [], b1⟩
  else
    .error (.runtimeError ("unknow transformation mode: " ++ mode))

/-- The approaches accepted by `Application.__parse_approach`. -/
def approaches : List String :=
  ["count", "list", "tree", "countp", "up", "gje-fp", "gje-prop", "gje-prop-n", "gje-simplex"]

/-- `Application.__parse_approach(value)`: stores the value and returns
whether it is one of the nine accepted approach strings. -/
def parse_approach (value : String) : Bool :=
  approaches.contains value

/-- `Application.__parse_cutoff(value)`: `self.__cutoff >= 0.0 and
self.__cutoff <= 1.0`.  The Python float is modelled as a rational. -/
def parse_cutoff (value : ℚ) : Bool :=
  decide (value ≥ 0) && decide (value ≤ 1)

/-- The parity terms `even`/`odd` of the `__parity` atoms. -/
inductive Parity where
  | even
  | odd
  deriving Repr, DecidableEq

/-- The target bit of a parity: `even` = 0, `odd` = 1. -/
def Parity.bit : Parity → Nat
  | .even => 0
  | .odd => 1

/-- Satisfaction of the two integrity constraints added in mode `"count"`
(`countProgram`) by a candidate model, read off the rule bodies:
            `:- count(inst of __parity(ID,p,X)) = N, N\2 != p.bit, __parity(ID,p).`
`declared` lists the ground `__parity(ID,p)` atoms true in the model and
`nTrue ID p` counts the true ground instances of `__parity(ID,p,X)`.
A body firing kills the model, so the model survives exactly when no body
fires. -/
def countModeSat (declared : List (Nat × Parity)) (nTrue : Nat → Parity → Nat) : Bool :=
  declared.all fun ip =>
    match ip.2 with
    | .even => !(nTrue ip.1 .even % 2 != 0)
    | .odd => !(nTrue ip.1 .odd % 2 != 1)

/-!  Semantics of the emitted backend rules.

The rules emitted by the translation are definitions of fresh auxiliary
atoms (`aux :- lhs, not rhs` / `aux :- not lhs, rhs`) plus integrity
constraints (empty head).  Because every auxiliary atom is defined only in
terms of strictly older atoms, the (unique) stable model restricted to
these atoms is computed by a single left-to-right pass over the rules:
an atom becomes true as soon as one of its rule bodies holds. -/

/-- Truth of a body literal under a valuation of atoms: a positive literal
is the atom itself, a negative literal the (default) negation of its
atom. -/
def holdsLit (v : Int → Bool) (l : Int) : Bool :=
  if 0 < l then v l else !(v (-l))

/-- Process one rule: a rule `[a] :- body` makes `a` true if its body
holds; rules with other head shapes (here: only integrity constraints)
leave the valuation unchanged. -/
def applyRule (v : Int → Bool) (r : XRule) : Int → Bool :=
  match r.1 with
  | [a] => fun x => if x = a then (r.2.all (holdsLit v) || v x) else v x
  | _ => v

/-- Left-to-right evaluation of a rule list. -/
def evalRules (rules : List XRule) (v : Int → Bool) : Int → Bool :=
  rules.foldl applyRule v

/-- An integrity constraint (empty head) holds under `v` when its body does
not: a rule `:- body` eliminates every model in which `body` holds. -/
def icHolds (v : Int → Bool) (r : XRule) : Prop :=
  r.1 = [] → ¬ (r.2.all (holdsLit v) = true)

/-- `l` is a well-formed input literal w.r.t. the fresh-atom bound `n`:
nonzero, and its atom is strictly below `n`. -/
def LitOk (n : Int) (l : Int) : Prop :=
  l ≠ 0 ∧ -n < l ∧ l < n

instance (n l : Int) : Decidable (LitOk n l) := by
  unfold LitOk; infer_instance

/-- Every rule in the list is either an integrity constraint or defines a
single atom in the range `[lo, hi)`. -/
def HeadsIn (lo hi : Int) (rules : List XRule) : Prop :=
  ∀ r ∈ rules, r.1 = [] ∨ ∃ a, r.1 = [a] ∧ lo ≤ a ∧ a < hi

/-- XOR-sum (odd-parity indicator) of `g` over a list. -/
def xorSum (g : Int → Bool) (lits : List Int) : Bool :=
  lits.foldr (fun l p => xor (g l) p) false

/-!  The watch-based unit propagator.

Modelled from the spec: the module `xorro/watches_up.py`
(`WatchesUnitPropagator`) is not part of the source here; §4.2 of the
design describes its propagation step: when exactly one literal of a
constraint remains unassigned, the constraint is unit, and the forced
polarity is the target parity XOR the parity folded from the already
assigned literals. -/

/-- A parity constraint: a set of literals and a target parity
(`true` = odd). -/
structure XorConstraint where
  lits : List Int
  parity : Bool
  deriving Repr, DecidableEq

/-- Value of a literal under a partial assignment of variables (atom ids),
`none` when its variable is unassigned. -/
def assignedVal (α : Nat → Option Bool) (l : Int) : Option Bool :=
  match α l.natAbs with
  | none => none
  | some bv => some (if 0 < l then bv else !bv)

/-- Modelled from the spec (§4.2): the literals of the constraint not yet
assigned by `α`. -/
def unassignedLits (α : Nat → Option Bool) (lits : List Int) : List Int :=
  lits.filter (fun l => (α l.natAbs).isNone)

/-- Modelled from the spec (§4.2): the constraint's running parity — the
XOR of the values of its already assigned literals (unassigned literals
contribute nothing). -/
def foldedValue (α : Nat → Option Bool) (lits : List Int) : Bool :=
  xorSum (fun l => (assignedVal α l).getD false) lits

/-- Value of a literal under a total assignment of variables. -/
def tVal (β : Nat → Bool) (l : Int) : Bool :=
  if 0 < l then β l.natAbs else !(β l.natAbs)

/-- A total assignment satisfies a parity constraint when the XOR of its
literals' values equals the target parity. -/
def constraintSat (β : Nat → Bool) (c : XorConstraint) : Bool :=
  xorSum (tVal β) c.lits == c.parity

/-- Modelled from the spec (§4.2): the unit-propagation step of
`WatchesUnitPropagator.propagate` on one constraint.  If exactly one
literal remains unassigned the constraint is unit and that literal is
forced to the target parity XOR the folded value; otherwise nothing is
forced here. -/
def wupPropagate (c : XorConstraint) (α : Nat → Option Bool) : Option (Int × Bool) :=
  match unassignedLits α c.lits with
  | [l] => some (l, xor c.parity (foldedValue α c.lits))
  | _ => none

/-- `β` is a total assignment extending the partial assignment `α`. -/
def Extends (α : Nat → Option Bool) (β : Nat → Bool) : Prop :=
  ∀ x bv, α x = some bv → β x = bv

/-- The behavioral content of a registered propagator: its strategy and its
cutoff.  Modelled from the spec (§6): the `display` flag passed to
`Simplex_GJE` (module `gje_simplex.py`, not part of the source here) only
controls diagnostic output, so it is not part of the behavior. -/
def PropagatorReg.behavior : PropagatorReg → String × ℚ
  | .CountCheckPropagator => ("countp", 0)
  | .WatchesUnitPropagator => ("up", 0)
  | .Propagate_GJE c => ("gje-fp", c)
  | .Reason_GJE c => ("gje-prop", c)
  | .State_GJE c => ("gje-prop-n", c)
  | .Simplex_GJE c _ => ("gje-simplex", c)

/-- Everything about an `Effect` that influences solving: added programs,
grounded parts, propagator behaviors, backend rules. -/
def Effect.observable (e : Effect) :
    List (String × String) × List String × List (String × ℚ) × Backend :=
  (e.added, e.grounded, e.registered.map PropagatorReg.behavior, e.backend)

/-- The literals at the leaves of a whole layer, left to right. -/
def leavesOf (layer : List TNode) : List Int :=
  layer.foldr (fun t acc => t.leaves ++ acc) []

/-!  Helper lemmas. -/

theorem pairUp_length : ∀ l : List TNode, (pairUp l).length = (l.length + 1) / 2
  | [] => rfl
  | [_] => by simp [pairUp]
  | x :: y :: rest => by
    simp only [pairUp, List.length_cons, pairUp_length rest]
    omega

theorem pairUp_leaves : ∀ l : List TNode, leavesOf (pairUp l) = leavesOf l
  | [] => rfl
  | [_] => rfl
  | x :: y :: rest => by
    simp only [pairUp, leavesOf, List.foldr_cons, TNode.leaves, List.append_assoc]
    rw [show (pairUp rest).foldr (fun t acc => t.leaves ++ acc) [] = leavesOf (pairUp rest) from rfl,
      pairUp_leaves rest]
    rfl

theorem pairUp_ne_nil (l : List TNode) (h : l ≠ []) : pairUp l ≠ [] := by
  rw [← List.length_pos] at h ⊢
  rw [pairUp_length]
  omega

theorem to_tree_loop_le_one : ∀ (n : Nat) (layer : List TNode),
    layer.length ≤ n + 1 → (to_tree_loop n layer).length ≤ 1 := by
  intro n
  induction n with
  | zero => intro layer h; simpa [to_tree_loop] using h
  | succ n ih =>
    intro layer h
    simp only [to_tree_loop]
    split
    · apply ih
      rw [pairUp_length]
      omega
    · omega

theorem to_tree_loop_fix : ∀ (n : Nat) (layer : List TNode),
    layer.length ≤ 1 → to_tree_loop n layer = layer := by
  intro n layer h
  cases n with
  | zero => rfl
  | succ n => simp only [to_tree_loop]; rw [if_neg (by omega)]

theorem to_tree_loop_add : ∀ (a b : Nat) (layer : List TNode),
    to_tree_loop (a + b) layer = to_tree_loop b (to_tree_loop a layer) := by
  intro a
  induction a with
  | zero => intro b layer; simp [to_tree_loop, Nat.zero_add]
  | succ a ih =>
    intro b layer
    rw [show a + 1 + b = (a + b) + 1 by omega]
    simp only [to_tree_loop]
    split
    · exact ih b (pairUp layer)
    · exact (to_tree_loop_fix b layer (by omega)).symm

theorem to_tree_loop_stable (layer : List TNode) (n m : Nat)
    (h : layer.length ≤ n + 1) (hm : n ≤ m) : to_tree_loop m layer = to_tree_loop n layer := by
  obtain ⟨k, rfl⟩ : ∃ k, m = n + k := ⟨m - n, by omega⟩
  rw [to_tree_loop_add n k layer, to_tree_loop_fix _ _ (to_tree_loop_le_one n layer h)]

theorem to_tree_loop_ne_nil : ∀ (n : Nat) (layer : List TNode),
    layer ≠ [] → to_tree_loop n layer ≠ [] := by
  intro n
  induction n with
  | zero => intro layer h; exact h
  | succ n ih =>
    intro layer h
    simp only [to_tree_loop]
    split
    · exact ih _ (pairUp_ne_nil _ h)
    · exact h

theorem to_tree_loop_leaves : ∀ (n : Nat) (layer : List TNode),
    leavesOf (to_tree_loop n layer) = leavesOf layer := by
  intro n
  induction n with
  | zero => intro layer; rfl
  | succ n ih =>
    intro layer
    simp only [to_tree_loop]
    split
    · rw [ih, pairUp_leaves]
    · rfl

theorem leavesOf_map_Leaf : ∀ c : List Int, leavesOf (c.map TNode.Leaf) = c := by
  intro c
  induction c with
  | nil => rfl
  | cons a c ih =>
    simp only [List.map_cons, leavesOf, List.foldr_cons, TNode.leaves] at ih ⊢
    rw [ih]
    rfl

theorem to_tree_total (c : List Int) (h : c ≠ []) :
    ∃ t, to_tree c = some t ∧ t.leaves = c := by
  have hne : c.map TNode.Leaf ≠ [] := by simpa using h
  have hlen : (to_tree_loop (c.map TNode.Leaf).length (c.map TNode.Leaf)).length ≤ 1 :=
    to_tree_loop_le_one _ _ (by omega)
  have hnn : to_tree_loop (c.map TNode.Leaf).length (c.map TNode.Leaf) ≠ [] :=
    to_tree_loop_ne_nil _ _ hne
  have hl : leavesOf (to_tree_loop (c.map TNode.Leaf).length (c.map TNode.Leaf)) = c := by
    rw [to_tree_loop_leaves, leavesOf_map_Leaf]
  cases hres : to_tree_loop (c.map TNode.Leaf).length (c.map TNode.Leaf) with
  | nil => exact absurd hres hnn
  | cons t rest =>
    cases rest with
    | nil =>
      refine ⟨t, ?_, ?_⟩
      · simp only [to_tree]
        rw [hres]
        rfl
      · rw [hres] at hl
        simpa [leavesOf] using hl
    | cons u rest2 => rw [hres] at hlen; simp at hlen

theorem xorSum_nil (g : Int → Bool) : xorSum g [] = false := rfl

theorem xorSum_cons (g : Int → Bool) (l : Int) (ls : List Int) :
    xorSum g (l :: ls) = xor (g l) (xorSum g ls) := rfl

theorem xorSum_append (g : Int → Bool) (l1 l2 : List Int) :
    xorSum g (l1 ++ l2) = xor (xorSum g l1) (xorSum g l2) := by
  induction l1 with
  | nil => simp [xorSum]
  | cons a l1 ih =>
    simp only [List.cons_append, xorSum_cons, ih, Bool.xor_assoc]

theorem xorSum_congr (g h : Int → Bool) (ls : List Int) (hgh : ∀ l ∈ ls, g l = h l) :
    xorSum g ls = xorSum h ls := by
  induction ls with
  | nil => rfl
  | cons a ls ih =>
    simp only [xorSum_cons]
    rw [hgh a (by simp), ih (fun l hl => hgh l (by simp [hl]))]

theorem foldl_xor_eq_xorSum (g : Int → Bool) : ∀ (xs : List Int) (i : Bool),
    xs.foldl (fun p r => xor p (g r)) i = xor i (xorSum g xs) := by
  intro xs
  induction xs with
  | nil => intro i; simp [xorSum]
  | cons a xs ih =>
    intro i
    simp only [List.foldl_cons, ih, xorSum_cons, Bool.xor_assoc]

theorem xorSum_eq_countP_odd (g : Int → Bool) (ls : List Int) :
    xorSum g ls = true ↔ ls.countP g % 2 = 1 := by
  induction ls with
  | nil => simp [xorSum]
  | cons a ls ih =>
    simp only [xorSum_cons, List.countP_cons]
    have hc := ih
    cases h : g a <;> cases hx : xorSum g ls <;> simp [h, hx] at hc ⊢ <;> omega

theorem holdsLit_neg (v : Int → Bool) (l : Int) (h : l ≠ 0) :
    holdsLit v (-l) = !(holdsLit v l) := by
  unfold holdsLit
  rcases lt_trichotomy l 0 with hl | hl | hl
  · rw [if_pos (by omega : (0:Int) < -l), if_neg (by omega : ¬(0:Int) < l), Bool.not_not]
  · exact absurd hl h
  · rw [if_neg (by omega : ¬(0:Int) < -l), if_pos hl, neg_neg]

theorem holdsLit_stable (v w : Int → Bool) (n l : Int) (hl : LitOk n l)
    (h : ∀ x, 0 < x → x < n → v x = w x) : holdsLit v l = holdsLit w l := by
  obtain ⟨h0, hlo, hhi⟩ := hl
  unfold holdsLit
  rcases lt_trichotomy l 0 with hneg | hz | hpos
  · rw [if_neg (by omega), if_neg (by omega), h (-l) (by omega) (by omega)]
  · exact absurd hz h0
  · rw [if_pos hpos, if_pos hpos, h l hpos hhi]

theorem applyRule_ic (v : Int → Bool) (body : List Int) :
    applyRule v ([], body) = v := rfl

theorem applyRule_ne (v : Int → Bool) (r : XRule) (x : Int)
    (h : ∀ a, r.1 = [a] → x ≠ a) : applyRule v r x = v x := by
  unfold applyRule
  rcases r with ⟨head, body⟩
  match head with
  | [] => rfl
  | [a] => simp only []; rw [if_neg (h a rfl)]
  | a :: b :: rest => rfl

theorem evalRules_nil (v : Int → Bool) : evalRules [] v = v := rfl

theorem evalRules_cons (r : XRule) (rs : List XRule) (v : Int → Bool) :
    evalRules (r :: rs) v = evalRules rs (applyRule v r) := rfl

theorem evalRules_append (r1 r2 : List XRule) (v : Int → Bool) :
    evalRules (r1 ++ r2) v = evalRules r2 (evalRules r1 v) := by
  simp [evalRules, List.foldl_append]

theorem evalRules_ne : ∀ (rules : List XRule) (v : Int → Bool) (x : Int),
    (∀ r ∈ rules, ∀ a, r.1 = [a] → x ≠ a) → evalRules rules v x = v x := by
  intro rules
  induction rules with
  | nil => intro v x _; rfl
  | cons r rs ih =>
    intro v x h
    rw [evalRules_cons, ih _ _ (fun r' hr' => h r' (by simp [hr'])),
      applyRule_ne _ _ _ (h r (by simp))]

theorem HeadsIn.append {lo hi : Int} {r1 r2 : List XRule}
    (h1 : HeadsIn lo hi r1) (h2 : HeadsIn lo hi r2) : HeadsIn lo hi (r1 ++ r2) := by
  intro r hr
  rcases List.mem_append.1 hr with h | h
  · exact h1 r h
  · exact h2 r h

theorem HeadsIn.widen {lo hi lo' hi' : Int} {rules : List XRule}
    (h : HeadsIn lo hi rules) (hlo : lo' ≤ lo) (hhi : hi ≤ hi') : HeadsIn lo' hi' rules := by
  intro r hr
  rcases h r hr with h0 | ⟨a, ha, h1, h2⟩
  · exact Or.inl h0
  · exact Or.inr ⟨a, ha, by omega, by omega⟩

theorem LitOk.relax {n m l : Int} (hnm : n ≤ m) (h : LitOk n l) : LitOk m l := by
  obtain ⟨h0, h1, h2⟩ := h
  exact ⟨h0, by omega, by omega⟩

theorem evalRules_frozen (rules : List XRule) (lo hi : Int) (v : Int → Bool) (x : Int)
    (hh : HeadsIn lo hi rules) (hx : x < lo ∨ hi ≤ x) : evalRules rules v x = v x := by
  apply evalRules_ne
  intro r hr a ha
  rcases hh r hr with h0 | ⟨a', ha', h1, h2⟩
  · rw [h0] at ha; cases ha
  · rw [ha'] at ha
    have : a' = a := by injection ha
    omega

theorem holdsLit_frozen (rules : List XRule) (lo hi : Int) (v : Int → Bool) (l : Int)
    (hh : HeadsIn lo hi rules) (hl : LitOk lo l) :
    holdsLit (evalRules rules v) l = holdsLit v l := by
  apply holdsLit_stable _ _ lo _ hl
  intro x hx1 hx2
  exact evalRules_frozen rules lo hi v x hh (Or.inl hx2)

theorem translate_binary_xor_eq (b : Backend) (lhs rhs : Int) :
    translate_binary_xor b lhs rhs =
      (b.nextAtom,
        ⟨b.nextAtom + 1,
          b.rules ++ [([b.nextAtom], [lhs, -rhs]), ([b.nextAtom], [-lhs, rhs])]⟩) := by
  simp [translate_binary_xor, Backend.add_atom, Backend.add_rule]

theorem applyRule_head (v : Int → Bool) (a : Int) (body : List Int) :
    applyRule v ([a], body) a = (body.all (holdsLit v) || v a) := by
  simp [applyRule]

theorem tbx_eval (v : Int → Bool) (n lhs rhs : Int) (hl : LitOk n lhs) (hr : LitOk n rhs)
    (hv : v n = false) :
    (evalRules [([n], [lhs, -rhs]), ([n], [-lhs, rhs])] v n
        = xor (holdsLit v lhs) (holdsLit v rhs)) ∧
    (∀ x, x ≠ n → evalRules [([n], [lhs, -rhs]), ([n], [-lhs, rhs])] v x = v x) := by
  have hfoo : evalRules [([n], [lhs, -rhs]), ([n], [-lhs, rhs])] v
      = applyRule (applyRule v ([n], [lhs, -rhs])) ([n], [-lhs, rhs]) := rfl
  have happ1 : ∀ x, x ≠ n → applyRule v ([n], [lhs, -rhs]) x = v x := by
    intro x hx
    apply applyRule_ne
    intro a ha
    have h2 : n = a := by simpa using ha
    omega
  have hstabL : holdsLit (applyRule v ([n], [lhs, -rhs])) lhs = holdsLit v lhs :=
    holdsLit_stable _ _ n _ hl (fun x _ hx2 => happ1 x (by omega))
  have hstabR : holdsLit (applyRule v ([n], [lhs, -rhs])) rhs = holdsLit v rhs :=
    holdsLit_stable _ _ n _ hr (fun x _ hx2 => happ1 x (by omega))
  have h1n : applyRule v ([n], [lhs, -rhs]) n
      = (holdsLit v lhs && !(holdsLit v rhs)) := by
    rw [applyRule_head]
    simp only [List.all_cons, List.all_nil, Bool.and_true]
    rw [holdsLit_neg v rhs hr.1, hv, Bool.or_false]
  constructor
  · rw [hfoo, applyRule_head]
    simp only [List.all_cons, List.all_nil, Bool.and_true]
    rw [holdsLit_neg _ lhs hl.1, hstabL, hstabR, h1n]
    cases holdsLit v lhs <;> cases holdsLit v rhs <;> rfl
  · intro x hx
    have houter : applyRule (applyRule v ([n], [lhs, -rhs])) ([n], [-lhs, rhs]) x
        = applyRule v ([n], [lhs, -rhs]) x := by
      apply applyRule_ne
      intro a ha
      have h2 : n = a := by simpa using ha
      omega
    rw [hfoo, houter, happ1 x hx]

theorem listFold_spec : ∀ (xs : List Int) (x : Int) (b : Backend),
    0 < b.nextAtom → LitOk b.nextAtom x → (∀ r ∈ xs, LitOk b.nextAtom r) →
    ∀ a b', xs.foldl (fun acc r => translate_binary_xor acc.2 acc.1 r) (x, b) = (a, b') →
      b.nextAtom ≤ b'.nextAtom ∧ 0 < b'.nextAtom ∧
      b'.rules = b.rules ++ b'.rules.drop b.rules.length ∧
      HeadsIn b.nextAtom b'.nextAtom (b'.rules.drop b.rules.length) ∧
      LitOk b'.nextAtom a ∧
      ∀ v, (∀ y, b.nextAtom ≤ y → v y = false) →
        holdsLit (evalRules (b'.rules.drop b.rules.length) v) a
          = xor (holdsLit v x) (xorSum (holdsLit v) xs) := by
  intro xs
  induction xs with
  | nil =>
    intro x b hb hx _ a b' hfold
    simp only [List.foldl_nil, Prod.mk.injEq] at hfold
    obtain ⟨rfl, rfl⟩ := hfold
    refine ⟨le_refl _, hb, by simp [List.drop_length], ?_, hx, ?_⟩
    · intro r hr; simp [List.drop_length] at hr
    · intro v _
      simp [List.drop_length, evalRules_nil, xorSum_nil]
  | cons r rest ih =>
    intro x b hb hx hmem a b' hfold
    rw [List.foldl_cons, translate_binary_xor_eq b x r] at hfold
    set b1 : Backend :=
      ⟨b.nextAtom + 1, b.rules ++ [([b.nextAtom], [x, -r]), ([b.nextAtom], [-x, r])]⟩ with hb1
    have e1 : b1.nextAtom = b.nextAtom + 1 := by rw [hb1]
    have e2 : b1.rules = b.rules ++ [([b.nextAtom], [x, -r]), ([b.nextAtom], [-x, r])] := by
      rw [hb1]
    have hr : LitOk b.nextAtom r := hmem r (by simp)
    have ihres := ih b.nextAtom b1 (by omega)
      ⟨by omega, by omega, by omega⟩
      (fun r' hr' => (hmem r' (by simp [hr'])).relax (by omega))
      a b' hfold
    obtain ⟨hle, hpos, hrules, hheads, hak, heval⟩ := ihres
    have hΔ : b'.rules.drop b.rules.length
        = [([b.nextAtom], [x, -r]), ([b.nextAtom], [-x, r])]
          ++ b'.rules.drop b1.rules.length := by
      conv_lhs => rw [hrules, e2]
      rw [List.append_assoc, List.drop_left]
    refine ⟨by omega, hpos, ?_, ?_, hak, ?_⟩
    · conv_lhs => rw [hrules, e2]
      rw [hΔ, List.append_assoc]
    · rw [hΔ]
      apply HeadsIn.append
      · intro rr hrr
        simp only [List.mem_cons, List.not_mem_nil, or_false] at hrr
        have hlt : b.nextAtom < b'.nextAtom := by omega
        rcases hrr with rfl | rfl
        · exact Or.inr ⟨b.nextAtom, rfl, le_refl _, hlt⟩
        · exact Or.inr ⟨b.nextAtom, rfl, le_refl _, hlt⟩
      · exact hheads.widen (by omega) (le_refl _)
    · intro v hv
      rw [hΔ, evalRules_append]
      have htbx := tbx_eval v b.nextAtom x r hx hr (hv _ (le_refl _))
      have hv1 : ∀ y, b1.nextAtom ≤ y →
          evalRules [([b.nextAtom], [x, -r]), ([b.nextAtom], [-x, r])] v y = false := by
        intro y hy
        rw [htbx.2 y (by omega), hv y (by omega)]
      have hres := heval _ hv1
      rw [hres]
      have haux : holdsLit (evalRules [([b.nextAtom], [x, -r]), ([b.nextAtom], [-x, r])] v)
          b.nextAtom = xor (holdsLit v x) (holdsLit v r) := by
        have hpos' : holdsLit (evalRules [([b.nextAtom], [x, -r]), ([b.nextAtom], [-x, r])] v)
            b.nextAtom
            = evalRules [([b.nextAtom], [x, -r]), ([b.nextAtom], [-x, r])] v b.nextAtom := by
          simp only [holdsLit]
          rw [if_pos hb]
        rw [hpos', htbx.1]
      have hcongr : xorSum
          (holdsLit (evalRules [([b.nextAtom], [x, -r]), ([b.nextAtom], [-x, r])] v)) rest
          = xorSum (holdsLit v) rest := by
        apply xorSum_congr
        intro l' hl'
        exact holdsLit_stable _ _ b.nextAtom _ (hmem l' (by simp [hl']))
          (fun z _ hz2 => htbx.2 z (by omega))
      rw [haux, hcongr, xorSum_cons, Bool.xor_assoc]

theorem ListXor_translate_spec (lits : List Int) (b : Backend) (hb : 0 < b.nextAtom)
    (hne : lits ≠ []) (hl : ∀ l ∈ lits, LitOk b.nextAtom l) :
    ∃ a b', ListXor.translate lits b = some (a, b') ∧
      b.nextAtom ≤ b'.nextAtom ∧ 0 < b'.nextAtom ∧
      b'.rules = b.rules ++ b'.rules.drop b.rules.length ∧
      HeadsIn b.nextAtom b'.nextAtom (b'.rules.drop b.rules.length) ∧
      LitOk b'.nextAtom a ∧
      ∀ v, (∀ y, b.nextAtom ≤ y → v y = false) →
        holdsLit (evalRules (b'.rules.drop b.rules.length) v) a
          = xorSum (holdsLit v) lits := by
  match lits, hne with
  | x :: xs, _ =>
    obtain ⟨hle, hpos, hrules, hheads, hak, heval⟩ :=
      listFold_spec xs x b hb (hl x (by simp)) (fun r hr => hl r (by simp [hr])) _ _ rfl
    refine ⟨_, _, rfl, hle, hpos, hrules, hheads, hak, ?_⟩
    intro v hv
    rw [heval v hv, xorSum_cons]

theorem tnode_translate_spec : ∀ (t : TNode) (b : Backend), 0 < b.nextAtom →
    (∀ l ∈ t.leaves, LitOk b.nextAtom l) →
    ∀ a b', t.translate b = (a, b') →
      b.nextAtom ≤ b'.nextAtom ∧ 0 < b'.nextAtom ∧
      b'.rules = b.rules ++ b'.rules.drop b.rules.length ∧
      HeadsIn b.nextAtom b'.nextAtom (b'.rules.drop b.rules.length) ∧
      LitOk b'.nextAtom a ∧
      ∀ v, (∀ y, b.nextAtom ≤ y → v y = false) →
        holdsLit (evalRules (b'.rules.drop b.rules.length) v) a
          = xorSum (holdsLit v) t.leaves := by
  intro t
  induction t with
  | Leaf a0 =>
    intro b hb hl a b' hab
    simp only [TNode.translate, Prod.mk.injEq] at hab
    obtain ⟨rfl, rfl⟩ := hab
    refine ⟨le_refl _, hb, by simp [List.drop_length], ?_,
      hl a0 (by simp [TNode.leaves]), ?_⟩
    · intro r hr2; simp [List.drop_length] at hr2
    · intro v _
      simp [List.drop_length, evalRules_nil, TNode.leaves, xorSum_cons, xorSum_nil]
  | Tree l r ihl ihr =>
    intro b hb hl a b' hab
    obtain ⟨la, bl, hpl⟩ : ∃ la bl, l.translate b = (la, bl) := ⟨_, _, rfl⟩
    obtain ⟨ra, br, hpr⟩ : ∃ ra br, r.translate bl = (ra, br) := ⟨_, _, rfl⟩
    have hab' : translate_binary_xor br la ra = (a, b') := by
      simpa [TNode.translate, hpl, hpr] using hab
    obtain ⟨hle_l, hpos_l, hrules_l, hheads_l, hak_l, heval_l⟩ :=
      ihl b hb (fun l' h' => hl l' (by simp [TNode.leaves, h'])) la bl hpl
    obtain ⟨hle_r, hpos_r, hrules_r, hheads_r, hak_r, heval_r⟩ :=
      ihr bl hpos_l (fun l' h' => (hl l' (by simp [TNode.leaves, h'])).relax hle_l) ra br hpr
    rw [translate_binary_xor_eq] at hab'
    simp only [Prod.mk.injEq] at hab'
    obtain ⟨ha, hb'eq⟩ := hab'
    subst ha
    have e1 : b'.nextAtom = br.nextAtom + 1 := by rw [← hb'eq]
    have e2 : b'.rules
        = br.rules ++ [([br.nextAtom], [la, -ra]), ([br.nextAtom], [-la, ra])] := by
      rw [← hb'eq]
    have hΔ : b'.rules.drop b.rules.length
        = bl.rules.drop b.rules.length
          ++ (br.rules.drop bl.rules.length
              ++ [([br.nextAtom], [la, -ra]), ([br.nextAtom], [-la, ra])]) := by
      conv_lhs => rw [e2, hrules_r, hrules_l]
      simp only [List.append_assoc]
      rw [List.drop_left, ← hrules_l]
    refine ⟨by omega, by omega, ?_, ?_, ⟨by omega, by omega, by omega⟩, ?_⟩
    · conv_lhs => rw [e2, hrules_r, hrules_l]
      rw [hΔ]
      simp only [List.append_assoc]
      rw [← hrules_l]
    · rw [hΔ]
      apply HeadsIn.append
      · exact hheads_l.widen (le_refl _) (by omega)
      · apply HeadsIn.append
        · exact hheads_r.widen (by omega) (by omega)
        · intro rr hrr
          simp only [List.mem_cons, List.not_mem_nil, or_false] at hrr
          rcases hrr with rfl | rfl
          · exact Or.inr ⟨br.nextAtom, rfl, by omega, by omega⟩
          · exact Or.inr ⟨br.nextAtom, rfl, by omega, by omega⟩
    · intro v hv
      rw [hΔ, evalRules_append, evalRules_append]
      have hw1fresh : ∀ y, bl.nextAtom ≤ y →
          evalRules (bl.rules.drop b.rules.length) v y = false := by
        intro y hy
        rw [evalRules_frozen _ b.nextAtom bl.nextAtom v y hheads_l (Or.inr hy), hv y (by omega)]
      have hw2fresh : ∀ y, br.nextAtom ≤ y →
          evalRules (br.rules.drop bl.rules.length)
            (evalRules (bl.rules.drop b.rules.length) v) y = false := by
        intro y hy
        rw [evalRules_frozen _ bl.nextAtom br.nextAtom _ y hheads_r (Or.inr hy),
          hw1fresh y (by omega)]
      have htbx := tbx_eval
        (evalRules (br.rules.drop bl.rules.length)
          (evalRules (bl.rules.drop b.rules.length) v))
        br.nextAtom la ra (hak_l.relax hle_r) hak_r (hw2fresh _ (le_refl _))
      have hpos' : holdsLit (evalRules [([br.nextAtom], [la, -ra]), ([br.nextAtom], [-la, ra])]
            (evalRules (br.rules.drop bl.rules.length)
              (evalRules (bl.rules.drop b.rules.length) v))) br.nextAtom
          = evalRules [([br.nextAtom], [la, -ra]), ([br.nextAtom], [-la, ra])]
              (evalRules (br.rules.drop bl.rules.length)
                (evalRules (bl.rules.drop b.rules.length) v)) br.nextAtom := by
        simp only [holdsLit]
        rw [if_pos (by omega)]
      rw [hpos', htbx.1]
      have hvalra : holdsLit (evalRules (br.rules.drop bl.rules.length)
            (evalRules (bl.rules.drop b.rules.length) v)) ra
          = xorSum (holdsLit v) r.leaves := by
        rw [heval_r _ hw1fresh]
        apply xorSum_congr
        intro l' hl'
        exact holdsLit_frozen _ b.nextAtom bl.nextAtom v l' hheads_l
          (hl l' (by simp [TNode.leaves, hl']))
      have hvalla : holdsLit (evalRules (br.rules.drop bl.rules.length)
            (evalRules (bl.rules.drop b.rules.length) v)) la
          = xorSum (holdsLit v) l.leaves := by
        rw [holdsLit_frozen _ bl.nextAtom br.nextAtom _ la hheads_r hak_l,
          heval_l v hv]
      rw [hvalla, hvalra, TNode.leaves, xorSum_append]

theorem evalRules_single_ic (body : List Int) (v : Int → Bool) :
    evalRules [([], body)] v = v := rfl

theorem forall₂_congr_mem {α β : Type} {R S : α → β → Prop} :
    ∀ {as : List α} {cs : List β}, List.Forall₂ R as cs →
    (∀ a c, c ∈ cs → R a c → S a c) → List.Forall₂ S as cs := by
  intro as cs h
  induction h with
  | nil => intro _; exact List.Forall₂.nil
  | @cons a c as' cs' hr _ ih =>
    intro himp
    exact List.Forall₂.cons (himp a c (by simp) hr)
      (ih (fun a' c' hc' hr' => himp a' c' (by simp [hc']) hr'))

theorem xorAtomOf_spec (mode : String) (hm : mode = "list" ∨ mode = "tree")
    (c : List Int) (b : Backend) (hb : 0 < b.nextAtom) (hc : c ≠ [])
    (hl : ∀ l ∈ c, LitOk b.nextAtom l) :
    ∃ a b' Δ, xorAtomOf mode c b = some (a, b') ∧
      b.nextAtom ≤ b'.nextAtom ∧ 0 < b'.nextAtom ∧
      b'.rules = b.rules ++ Δ ∧
      HeadsIn b.nextAtom b'.nextAtom Δ ∧
      LitOk b'.nextAtom a ∧
      ∀ v, (∀ y, b.nextAtom ≤ y → v y = false) →
        holdsLit (evalRules Δ v) a = xorSum (holdsLit v) c := by
  rcases hm with hm | hm <;> subst hm
  · obtain ⟨a, b', hsome, hle, hpos, hrules, hheads, hak, heval⟩ :=
      ListXor_translate_spec c b hb hc hl
    refine ⟨a, b', b'.rules.drop b.rules.length, ?_, hle, hpos, hrules, hheads, hak, heval⟩
    simp [xorAtomOf, ListXor.init, List.length_pos.mpr hc, hsome]
  · obtain ⟨t, ht, hleaves⟩ := to_tree_total c hc
    obtain ⟨hle, hpos, hrules, hheads, hak, heval⟩ :=
      tnode_translate_spec t b hb (by rw [hleaves]; exact hl) _ _ rfl
    refine ⟨(t.translate b).1, (t.translate b).2,
      (t.translate b).2.rules.drop b.rules.length, ?_, hle, hpos, hrules, hheads, hak, ?_⟩
    · rw [xorAtomOf, if_neg (by decide), ht]
      rfl
    · intro v hv
      rw [heval v hv, hleaves]

theorem translateConstraints_spec (mode : String) (hm : mode = "list" ∨ mode = "tree") :
    ∀ (cs : List (List Int)) (b : Backend), 0 < b.nextAtom →
    (∀ c ∈ cs, c ≠ [] ∧ ∀ l ∈ c, LitOk b.nextAtom l) →
    ∃ b' atoms Δ, translateConstraints mode cs b = some b' ∧
      b.nextAtom ≤ b'.nextAtom ∧ 0 < b'.nextAtom ∧
      b'.rules = b.rules ++ Δ ∧
      HeadsIn b.nextAtom b'.nextAtom Δ ∧
      List.Forall₂ (fun (a : Int) (_ : List Int) => a ≠ 0 ∧ ([], [-a]) ∈ Δ) atoms cs ∧
      (∀ v, (∀ y, b.nextAtom ≤ y → v y = false) →
        List.Forall₂ (fun (a : Int) (c : List Int) =>
          holdsLit (evalRules Δ v) a = xorSum (holdsLit v) c) atoms cs) := by
  intro cs
  induction cs with
  | nil =>
    intro b hb _
    exact ⟨b, [], [], rfl, le_refl _, hb, by simp,
      fun r hr => absurd hr (List.not_mem_nil r),
      List.Forall₂.nil, fun v _ => List.Forall₂.nil⟩
  | cons c rest ih =>
    intro b hb hcs
    obtain ⟨a, b1, Δ1, hxa, hle1, hpos1, hrules1, hheads1, hak1, heval1⟩ :=
      xorAtomOf_spec mode hm c b hb (hcs c (by simp)).1 (hcs c (by simp)).2
    have e3 : (b1.add_rule [] [-a]).nextAtom = b1.nextAtom := rfl
    have e4 : (b1.add_rule [] [-a]).rules = b1.rules ++ [([], [-a])] := rfl
    obtain ⟨b', atoms, Δrest, hrest, hle2, hpos2, hrules2, hheads2, hmem2, heval2⟩ :=
      ih (b1.add_rule [] [-a]) (by omega)
        (fun c' hc' => ⟨(hcs c' (by simp [hc'])).1,
          fun l hl' => ((hcs c' (by simp [hc'])).2 l hl').relax (by omega)⟩)
    refine ⟨b', a :: atoms, Δ1 ++ ([([], [-a])] ++ Δrest), ?_, by omega, hpos2, ?_, ?_, ?_, ?_⟩
    · simp only [translateConstraints, hxa]
      exact hrest
    · rw [hrules2, e4, hrules1]
      simp [List.append_assoc]
    · apply HeadsIn.append
      · exact hheads1.widen (le_refl _) (by omega)
      · apply HeadsIn.append
        · intro rr hrr
          simp only [List.mem_singleton] at hrr
          rw [hrr]
          exact Or.inl rfl
        · exact hheads2.widen (by omega) (le_refl _)
    · refine List.Forall₂.cons ⟨hak1.1, by simp⟩ ?_
      exact hmem2.imp (fun a' c' h => ⟨h.1, by simp [h.2]⟩)
    · intro v hv
      have hw1 : ∀ y, (b1.add_rule [] [-a]).nextAtom ≤ y → evalRules Δ1 v y = false := by
        intro y hy
        rw [evalRules_frozen Δ1 b.nextAtom b1.nextAtom v y hheads1 (Or.inr (by omega)),
          hv y (by omega)]
      have hfull : evalRules (Δ1 ++ ([([], [-a])] ++ Δrest)) v
          = evalRules Δrest (evalRules Δ1 v) := by
        rw [evalRules_append, evalRules_append, evalRules_single_ic]
      refine List.Forall₂.cons ?_ ?_
      · rw [hfull,
          holdsLit_frozen Δrest (b1.add_rule [] [-a]).nextAtom b'.nextAtom _ a hheads2 hak1]
        exact heval1 v hv
      · have hforall := heval2 (evalRules Δ1 v) hw1
        apply forall₂_congr_mem hforall
        intro a' c' hc' hval
        rw [hfull, hval]
        apply xorSum_congr
        intro l' hl'
        exact holdsLit_frozen Δ1 b.nextAtom b1.nextAtom v l' hheads1
          ((hcs c' (by simp [hc'])).2 l' hl')

theorem factsFold_spec : ∀ (facts : List Int) (b : Backend),
    (facts.foldl (fun bb f => bb.add_rule [] [-f]) b).nextAtom = b.nextAtom ∧
    (facts.foldl (fun bb f => bb.add_rule [] [-f]) b).rules
      = b.rules ++ facts.map (fun f => ([], [-f])) := by
  intro facts
  induction facts with
  | nil => intro b; exact ⟨rfl, by simp⟩
  | cons f fs ih =>
    intro b
    rw [List.foldl_cons]
    refine ⟨?_, ?_⟩
    · rw [(ih (b.add_rule [] [-f])).1]; rfl
    · rw [(ih (b.add_rule [] [-f])).2]
      simp [Backend.add_rule]

theorem xorSum_split (α : Nat → Option Bool) (β : Nat → Bool) (hext : Extends α β) :
    ∀ lits : List Int, xorSum (tVal β) lits
      = xor (foldedValue α lits) (xorSum (tVal β) (unassignedLits α lits)) := by
  intro lits
  induction lits with
  | nil => rfl
  | cons l ls ih =>
    have hfold : foldedValue α (l :: ls)
        = xor ((assignedVal α l).getD false) (foldedValue α ls) := rfl
    cases hα : α l.natAbs with
    | some bv =>
      have htv : tVal β l = (assignedVal α l).getD false := by
        unfold tVal assignedVal
        rw [hα]
        have hb := hext l.natAbs bv hα
        simp [hb]
      have hun : unassignedLits α (l :: ls) = unassignedLits α ls := by
        simp [unassignedLits, List.filter_cons, hα]
      rw [xorSum_cons, ih, hun, hfold, htv, Bool.xor_assoc]
    | none =>
      have hun : unassignedLits α (l :: ls) = l :: unassignedLits α ls := by
        simp [unassignedLits, List.filter_cons, hα]
      have hg : (assignedVal α l).getD false = false := by simp [assignedVal, hα]
      rw [xorSum_cons, ih, hun, xorSum_cons, hfold, hg, Bool.false_xor]
      cases tVal β l <;> cases foldedValue α ls
        <;> cases xorSum (tVal β) (unassignedLits α ls) <;> rfl

/-!  Claim theorems. -/

/-- C1: in mode "count", `translate` adds the two integrity constraints of
`countProgram` and grounds them, and a candidate model satisfies those
constraints exactly when, for every declared `__parity(ID,p)` atom, the
number of true `__parity(ID,p,X)` atoms is congruent to the target bit of
`p` modulo 2. -/
theorem c1_count_parity_semantics :
    ∀ (cutoff : ℚ) (display : Bool) (ret : Option (List (List Int) × List Int)) (b : Backend)
      (declared : List (Nat × Parity)) (nTrue : Nat → Parity → Nat),
    xorro.translate "count" cutoff display ret b
      = .ok ⟨[("__count", countProgram)], ["__count"], [], b⟩ ∧
    (countModeSat declared nTrue = true ↔
      ∀ ip ∈ declared, nTrue ip.1 ip.2 % 2 = ip.2.bit) := by
  intro cutoff display ret b declared nTrue
  refine ⟨rfl, ?_⟩
  simp only [countModeSat, List.all_eq_true]
  constructor
  · intro h ip hip
    have h2 := h ip hip
    rcases ip with ⟨id, p⟩
    cases p
    · simp only [Parity.bit]
      simpa using h2
    · simp only [Parity.bit]
      simpa using h2
  · intro h ip hip
    have h2 := h ip hip
    rcases ip with ⟨id, p⟩
    cases p
    · simp only [Parity.bit] at h2
      simpa using h2
    · simp only [Parity.bit] at h2
      simpa using h2

/-- C2: in modes "list" and "tree", when the XOR preprocessing reports a
contradiction (`ret = none`) `translate` adds the empty integrity
constraint, which no interpretation satisfies; otherwise it adds, for every
fact literal `f`, the integrity constraint `:- not f` (which holds exactly
when `f` is true), and for every remaining constraint an integrity
constraint `:- not a` on an atom `a` whose value is the XOR of the
constraint's literals. -/
theorem c2_list_tree_translation (mode : String) (hm : mode = "list" ∨ mode = "tree")
    (cs : List (List Int)) (facts : List Int) (b : Backend)
    (hb : 0 < b.nextAtom)
    (hcs : ∀ c ∈ cs, c ≠ [] ∧ ∀ l ∈ c, LitOk b.nextAtom l) :
    (translate_list_tree mode none b = some (b.add_rule [] []) ∧
      ∀ v : Int → Bool, ¬ icHolds v ([], [])) ∧
    (∀ (f : Int) (v : Int → Bool), f ≠ 0 → (icHolds v ([], [-f]) ↔ holdsLit v f = true)) ∧
    (∃ b' atoms Δ,
      translate_list_tree mode (some (cs, facts)) b = some b' ∧
      b'.rules = b.rules ++ facts.map (fun f => ([], [-f])) ++ Δ ∧
      List.Forall₂ (fun (a : Int) (_ : List Int) => a ≠ 0 ∧ ([], [-a]) ∈ Δ) atoms cs ∧
      ∀ v, (∀ y, b.nextAtom ≤ y → v y = false) →
        List.Forall₂ (fun (a : Int) (c : List Int) =>
          holdsLit (evalRules Δ v) a = xorSum (holdsLit v) c) atoms cs) := by
  refine ⟨⟨rfl, fun v h => h rfl rfl⟩, ?_, ?_⟩
  · intro f v hf
    unfold icHolds
    simp [List.all_cons, holdsLit_neg v f hf]
  · have hbf := factsFold_spec facts b
    obtain ⟨b', atoms, Δ, htc, hle, hpos, hrules, hheads, hmemF, hevalF⟩ :=
      translateConstraints_spec mode hm cs (facts.foldl (fun bb f => bb.add_rule [] [-f]) b)
        (by rw [hbf.1]; exact hb)
        (fun c hc => ⟨(hcs c hc).1, fun l hl => by rw [hbf.1]; exact (hcs c hc).2 l hl⟩)
    refine ⟨b', atoms, Δ, htc, ?_, hmemF, ?_⟩
    · rw [hrules, hbf.2]
    · intro v hv
      exact hevalF v (fun y hy => hv y (by rw [hbf.1] at hy; exact hy))

/-- C2 witness. -/
theorem c2_witness :
    ((0 : Int) < 4) ∧ (∀ c ∈ ([[1, 2]] : List (List Int)), c ≠ [] ∧ ∀ l ∈ c, LitOk 4 l) ∧
    (∃ b' atoms Δ,
      translate_list_tree "list" (some ([[1, 2]], [3])) ⟨4, []⟩ = some b' ∧
      b'.rules = (⟨4, []⟩ : Backend).rules
        ++ ([3] : List Int).map (fun f => ([], [-f])) ++ Δ ∧
      List.Forall₂ (fun (a : Int) (_ : List Int) => a ≠ 0 ∧ ([], [-a]) ∈ Δ) atoms [[1, 2]] ∧
      ∀ v, (∀ y, (⟨4, []⟩ : Backend).nextAtom ≤ y → v y = false) →
        List.Forall₂ (fun (a : Int) (c : List Int) =>
          holdsLit (evalRules Δ v) a = xorSum (holdsLit v) c) atoms [[1, 2]]) :=
  ⟨by decide, by decide,
    (c2_list_tree_translation "list" (Or.inl rfl) [[1, 2]] [3] ⟨4, []⟩
      (by decide) (by decide)).2.2⟩

/-- C3: the cutoff value is accepted exactly when it lies in the closed
interval `[0, 1]`; returning `false` from the option parser makes the
configuration fail. -/
theorem c3_cutoff_range : ∀ v : ℚ, parse_cutoff v = true ↔ v ∈ Set.Icc (0 : ℚ) 1 := by
  intro v
  simp [parse_cutoff, Set.mem_Icc]

/-- C4: an empty literal list is rejected by the list/tree machinery:
`List.__init__`'s assertion fails, `List.translate` raises, and `to_tree`
cannot return a node; on a non-empty constraint all three succeed. -/
theorem c4_empty_constraint_rejected :
    (ListXor.init [] = none) ∧ (to_tree [] = none) ∧
    (∀ b : Backend, ListXor.translate [] b = none) ∧
    (∀ (c : List Int) (b : Backend), c ≠ [] →
      ListXor.init c = some c ∧ (∃ r, ListXor.translate c b = some r) ∧
      ∃ t, to_tree c = some t) := by
  refine ⟨rfl, rfl, fun b => rfl, ?_⟩
  intro c b hc
  refine ⟨by simp [ListXor.init, List.length_pos.mpr hc], ?_, ?_⟩
  · match c, hc with
    | x :: xs, _ => exact ⟨_, rfl⟩
  · obtain ⟨t, ht, _⟩ := to_tree_total c hc
    exact ⟨t, ht⟩

/-- C4 witness. -/
theorem c4_witness : (([1, 2] : List Int) ≠ []) ∧
    (ListXor.init [1, 2] = some [1, 2] ∧
      (∃ r, ListXor.translate [1, 2] ⟨3, []⟩ = some r) ∧
      ∃ t, to_tree [1, 2] = some t) :=
  ⟨by decide, c4_empty_constraint_rejected.2.2.2 [1, 2] ⟨3, []⟩ (by decide)⟩

/-- C5: mode "gje-fp" registers both the unit propagator and the GJE
fixpoint propagator (with the configured cutoff); modes "countp", "up",
"gje-prop", "gje-prop-n" and "gje-simplex" each register exactly one
propagator. -/
theorem c5_propagator_registration :
    ∀ (cutoff : ℚ) (display : Bool) (ret : Option (List (List Int) × List Int)) (b : Backend),
    xorro.translate "gje-fp" cutoff display ret b
      = .ok ⟨[], [], [.WatchesUnitPropagator, .Propagate_GJE cutoff], b⟩ ∧
    xorro.translate "countp" cutoff display ret b
      = .ok ⟨[], [], [.CountCheckPropagator], b⟩ ∧
    xorro.translate "up" cutoff display ret b
      = .ok ⟨[], [], [.WatchesUnitPropagator], b⟩ ∧
    xorro.translate "gje-prop" cutoff display ret b
      = .ok ⟨[], [], [.Reason_GJE cutoff], b⟩ ∧
    xorro.translate "gje-prop-n" cutoff display ret b
      = .ok ⟨[], [], [.State_GJE cutoff], b⟩ ∧
    xorro.translate "gje-simplex" cutoff display ret b
      = .ok ⟨[], [], [.Simplex_GJE cutoff display], b⟩ := by
  intro cutoff display ret b
  exact ⟨rfl, rfl, rfl, rfl, rfl, rfl⟩

/-- C6: the display flag has no behavioral effect on `translate`: for every
mode, cutoff and preprocessing result, the added programs, grounded parts,
propagator behaviors and backend rules are identical for `display = true`
and `display = false` (the flag is only forwarded to `Simplex_GJE`, whose
diagnostic output it controls). -/
theorem c6_display_no_behavioral_effect :
    ∀ (mode : String) (cutoff : ℚ) (ret : Option (List (List Int) × List Int)) (b : Backend),
    (xorro.translate mode cutoff true ret b).map Effect.observable
      = (xorro.translate mode cutoff false ret b).map Effect.observable := by
  intro mode cutoff ret b
  unfold xorro.translate
  split_ifs <;> rfl

/-- C7: soundness of unit propagation: if the propagation step forces a
literal, then in every total assignment extending the current partial
assignment and satisfying the constraint, the forced literal has the
forced value. -/
theorem c7_propagation_soundness (c : XorConstraint) (α : Nat → Option Bool)
    (l : Int) (val : Bool) (β : Nat → Bool)
    (hp : wupPropagate c α = some (l, val)) (hext : Extends α β)
    (hsat : constraintSat β c = true) : tVal β l = val := by
  unfold wupPropagate at hp
  rcases hu : unassignedLits α c.lits with _ | ⟨l0, _ | ⟨l1, rest⟩⟩
  · rw [hu] at hp; simp at hp
  · rw [hu] at hp
    simp only [Option.some.injEq, Prod.mk.injEq] at hp
    obtain ⟨rfl, rfl⟩ := hp
    have hsplit := xorSum_split α β hext c.lits
    rw [hu] at hsplit
    simp only [constraintSat, beq_iff_eq] at hsat
    rw [hsplit] at hsat
    rw [xorSum_cons, xorSum_nil] at hsat
    cases hf : foldedValue α c.lits <;> cases hv : tVal β l0 <;>
      rw [hf, hv] at hsat <;> simp at hsat <;> simp [hf, hv, ← hsat]
  · rw [hu] at hp; simp at hp

/-- C7 witness (spec scenario 1: constraints `a xor b = odd`, assign
`a = true`, forcing `b = false`). -/
theorem c7_witness :
    wupPropagate ⟨[1, 2], true⟩ (fun n => if n = 1 then some true else none)
      = some (2, false) ∧
    Extends (fun n => if n = 1 then some true else none) (fun n => n == 1) ∧
    constraintSat (fun n => n == 1) ⟨[1, 2], true⟩ = true ∧
    tVal (fun n => n == 1) 2 = false := by
  have hext : Extends (fun n => if n = 1 then some true else none) (fun n => n == 1) := by
    intro x bv h
    by_cases hx : x = 1
    · subst hx
      simp at h
      simp [h]
    · simp [hx] at h
  exact ⟨by decide, hext, by decide,
    c7_propagation_soundness ⟨[1, 2], true⟩ _ 2 false _ (by decide) hext (by decide)⟩

/-- C8: the auxiliary atom of `translate_binary_xor` is derivable exactly
when its two arguments differ; the atoms produced by `List.translate` and
by `to_tree(...).translate` both evaluate to the XOR (odd parity) of all
the constraint's literals, so modes "list" and "tree" are logically
equivalent. -/
theorem c8_xor_semantics (lits : List Int) (b : Backend) (v : Int → Bool)
    (hb : 0 < b.nextAtom) (hne : lits ≠ []) (hl : ∀ l ∈ lits, LitOk b.nextAtom l)
    (hv : ∀ y, b.nextAtom ≤ y → v y = false) :
    (∀ lhs rhs, LitOk b.nextAtom lhs → LitOk b.nextAtom rhs →
      ∀ a b', translate_binary_xor b lhs rhs = (a, b') →
        (evalRules (b'.rules.drop b.rules.length) v a = true
          ↔ holdsLit v lhs ≠ holdsLit v rhs)) ∧
    (∃ a b', ListXor.translate lits b = some (a, b') ∧
      holdsLit (evalRules (b'.rules.drop b.rules.length) v) a
        = xorSum (holdsLit v) lits) ∧
    (∃ t a b', to_tree lits = some t ∧ t.translate b = (a, b') ∧
      holdsLit (evalRules (b'.rules.drop b.rules.length) v) a
        = xorSum (holdsLit v) lits) ∧
    (xorSum (holdsLit v) lits = true
      ↔ lits.countP (fun l => holdsLit v l) % 2 = 1) := by
  refine ⟨?_, ?_, ?_, xorSum_eq_countP_odd _ _⟩
  · intro lhs rhs hlh hrh a b' hab
    rw [translate_binary_xor_eq] at hab
    simp only [Prod.mk.injEq] at hab
    obtain ⟨rfl, hb'⟩ := hab
    have hdrop : b'.rules.drop b.rules.length
        = [([b.nextAtom], [lhs, -rhs]), ([b.nextAtom], [-lhs, rhs])] := by
      rw [← hb']
      exact List.drop_left _ _
    rw [hdrop, (tbx_eval v b.nextAtom lhs rhs hlh hrh (hv _ (le_refl _))).1]
    cases holdsLit v lhs <;> cases holdsLit v rhs <;> simp
  · obtain ⟨a, b', hsome, _, _, _, _, _, heval⟩ :=
      ListXor_translate_spec lits b hb hne hl
    exact ⟨a, b', hsome, heval v hv⟩
  · obtain ⟨t, ht, hleaves⟩ := to_tree_total lits hne
    obtain ⟨_, _, _, _, _, heval⟩ :=
      tnode_translate_spec t b hb (by rw [hleaves]; exact hl) _ _ rfl
    refine ⟨t, (t.translate b).1, (t.translate b).2, ht, rfl, ?_⟩
    rw [heval v hv, hleaves]

/-- C8 witness. -/
theorem c8_witness :
    ((0 : Int) < 3) ∧ (([1, 2] : List Int) ≠ []) ∧
    (∀ l ∈ ([1, 2] : List Int), LitOk 3 l) ∧
    (∃ a b', ListXor.translate [1, 2] ⟨3, []⟩ = some (a, b') ∧
      holdsLit (evalRules (b'.rules.drop (⟨3, []⟩ : Backend).rules.length)
          (fun x : Int => x == 1)) a
        = xorSum (holdsLit (fun x : Int => x == 1)) [1, 2]) := by
  have hv : ∀ y : Int, (⟨3, []⟩ : Backend).nextAtom ≤ y → (fun x : Int => x == 1) y = false := by
    intro y hy
    simp only [beq_eq_false_iff_ne]
    simp only [Backend.nextAtom] at hy
    omega
  exact ⟨by decide, by decide, by decide,
    (c8_xor_semantics [1, 2] ⟨3, []⟩ (fun x : Int => x == 1)
      (by decide) (by decide) (by decide) hv).2.1⟩

/-- C9: `to_tree` terminates: one iteration of its loop maps a layer of
`n > 1` nodes to a layer of `(n + 1) / 2` nodes — a strictly smaller
positive number — so the loop reaches its fixpoint within the fuel bound
(extra fuel changes nothing) and `to_tree` returns a node on every
non-empty constraint. -/
theorem c9_to_tree_terminates :
    (∀ layer : List TNode, 1 < layer.length →
      (pairUp layer).length = (layer.length + 1) / 2 ∧
      0 < (pairUp layer).length ∧ (pairUp layer).length < layer.length) ∧
    (∀ (layer : List TNode) (n : Nat), layer.length ≤ n + 1 →
      (to_tree_loop n layer).length ≤ 1) ∧
    (∀ (layer : List TNode) (n m : Nat), layer.length ≤ n + 1 → n ≤ m →
      to_tree_loop m layer = to_tree_loop n layer) ∧
    (∀ c : List Int, c ≠ [] → ∃ t, to_tree c = some t) := by
  refine ⟨?_, ?_, ?_, ?_⟩
  · intro layer h
    refine ⟨pairUp_length layer, ?_, ?_⟩ <;> rw [pairUp_length] <;> omega
  · intro layer n h
    exact to_tree_loop_le_one n layer h
  · intro layer n m h hm
    exact to_tree_loop_stable layer n m h hm
  · intro c hc
    obtain ⟨t, ht, _⟩ := to_tree_total c hc
    exact ⟨t, ht⟩

/-- C9 witness. -/
theorem c9_witness :
    (1 < ([TNode.Leaf 1, TNode.Leaf 2] : List TNode).length ∧
      (pairUp [TNode.Leaf 1, TNode.Leaf 2]).length
        = (([TNode.Leaf 1, TNode.Leaf 2] : List TNode).length + 1) / 2 ∧
      0 < (pairUp [TNode.Leaf 1, TNode.Leaf 2]).length ∧
      (pairUp [TNode.Leaf 1, TNode.Leaf 2]).length
        < ([TNode.Leaf 1, TNode.Leaf 2] : List TNode).length) ∧
    (([1, 2, 3] : List Int) ≠ [] ∧ ∃ t, to_tree [1, 2, 3] = some t) :=
  ⟨⟨by decide, c9_to_tree_terminates.1 _ (by decide)⟩,
   ⟨by decide, c9_to_tree_terminates.2.2.2 [1, 2, 3] (by decide)⟩⟩

/-- C10: the accepted approach modes are exactly the nine strings of
`approaches`; the string "gje" shown in the option help is rejected; and
`translate` raises `RuntimeError` for every mode outside the set. -/
theorem c10_approach_modes :
    (∀ s : String, parse_approach s = true ↔ s ∈ approaches) ∧
    parse_approach "gje" = false ∧
    (∀ (s : String) (cutoff : ℚ) (display : Bool)
      (ret : Option (List (List Int) × List Int)) (b : Backend),
      s ∉ approaches →
      xorro.translate s cutoff display ret b
        = .error (.runtimeError ("unknow transformation mode: " ++ s))) := by
  refine ⟨?_, by rfl, ?_⟩
  · intro s
    simp [parse_approach]
  · intro s cutoff display ret b h
    simp only [approaches, List.mem_cons, List.not_mem_nil, or_false, not_or] at h
    obtain ⟨h1, h2, h3, h4, h5, h6, h7, h8, h9⟩ := h
    simp [xorro.translate, h1, h2, h3, h4, h5, h6, h7, h8, h9]

/-- C10 witness. -/
theorem c10_witness :
    ("gje" ∉ approaches) ∧
    xorro.translate "gje" 0 false none ⟨1, []⟩
      = .error (.runtimeError ("unknow transformation mode: " ++ "gje")) :=
  ⟨by decide, c10_approach_modes.2.2 "gje" 0 false none ⟨1, []⟩ (by decide)⟩
